import Mathlib

/-!
Shallow embedding of scripts/replicate_paper.py (run orchestration and
metrics extraction) and proofs about it.

Conventions of the embedding:
* Python lists of strings become List String; a file system is an oracle
  function from path to content lines.
* Python float arithmetic is embedded as exact rational arithmetic (ℚ).
  All concrete inputs used in the theorems below take values on which IEEE
  double and exact arithmetic agree.
* Python int(x) truncates toward zero; it is embedded as pyInt.
* Fallible Python code (IndexError, NameError, KeyError, ValueError,
  sys.exit) is embedded with Option/Except; the PyErr constructors name
  the kind of Python-level failure.
* datetime.strptime with the fixed-width format "%Y-%m-%d_%H:%M:%S" is
  order-isomorphic to lexicographic string order on well-formed stamps,
  so datetime comparison is embedded as code-point string comparison.
-/

/-- Code-point lexicographic order on character lists, the order Python
uses to compare and sort strings. -/
def lexLe : List Char → List Char → Bool
  | [], _ => true
  | _ :: _, [] => false
  | a :: as, b :: bs =>
    if a.val < b.val then true
    else if b.val < a.val then false
    else lexLe as bs

/-- Python string comparison a <= b. -/
def strLe (a b : String) : Bool := lexLe a.data b.data

/-- Does pat occur at the very start of s? (character-list level) -/
def prefOf : List Char → List Char → Bool
  | [], _ => true
  | _ :: _, [] => false
  | a :: as, b :: bs => a = b && prefOf as bs

/-- Does pat occur anywhere in s? (Python substring containment) -/
def subOf (pat : List Char) : List Char → Bool
  | [] => prefOf pat []
  | s@(_ :: rest) => prefOf pat s || subOf pat rest

/-- Python "pat in s" on strings. -/
def strHas (pat s : String) : Bool := subOf pat.data s.data

/-- Python str.endswith. -/
def endsWithStr (s suf : String) : Bool :=
  prefOf suf.data.reverse s.data.reverse

/-- Python str.split(sep) on character lists, fuelled so that the
definition is structural (the fuel is always the length of the text,
which suffices). Scans left to right, breaking at each leftmost
occurrence of sep, keeping empty chunks, like Python. -/
def splitFuel (sep : List Char) : Nat → List Char → List (List Char)
  | _, [] => [[]]
  | 0, s => [s]
  | fuel + 1, c :: cs =>
    if sep.isEmpty then [c :: cs]
    else if prefOf sep (c :: cs) then
      [] :: splitFuel sep fuel (List.drop (sep.length - 1) cs)
    else
      match splitFuel sep fuel cs with
      | [] => [[c]]
      | p :: ps => (c :: p) :: ps

/-- Python str.split(sep) on character lists. -/
def splitSeq (sep s : List Char) : List (List Char) := splitFuel sep s.length s

/-- Python str.split(sep) on strings. -/
def pySplit (sep s : String) : List String :=
  (splitSeq sep.data s.data).map String.mk

/-- Join chunks with a separator (the reverse of splitSeq). -/
def joinSep (sep : List Char) : List (List Char) → List Char
  | [] => []
  | [p] => p
  | p :: q :: rest => p ++ sep ++ joinSep sep (q :: rest)

/-- The decimal digit character for k percent 10. -/
def dChar (k : Nat) : Char :=
  if k % 10 = 0 then '0' else if k % 10 = 1 then '1'
  else if k % 10 = 2 then '2' else if k % 10 = 3 then '3'
  else if k % 10 = 4 then '4' else if k % 10 = 5 then '5'
  else if k % 10 = 6 then '6' else if k % 10 = 7 then '7'
  else if k % 10 = 8 then '8' else '9'

/-- Decimal digits of n, most significant first (fuelled; fuel n + 1 is
always enough since n / 10 strictly decreases). -/
def natChars : Nat → Nat → List Char
  | 0, n => [dChar n]
  | fuel + 1, n => if n < 10 then [dChar n] else natChars fuel (n / 10) ++ [dChar n]

/-- Python str(n) for a natural number. -/
def natStr (n : Nat) : String := ⟨natChars n n⟩

/-- Python whitespace test used by str.rstrip(). -/
def isPySpace (c : Char) : Bool :=
  c = ' ' || c = '\n' || c = '\t' || c = '\r' || c = '\x0b' || c = '\x0c'

/-- Python str.rstrip(). -/
def pyRstrip (s : String) : String :=
  ⟨(s.data.reverse.dropWhile isPySpace).reverse⟩

/-- Numeric value of a digit character, none for a non-digit. -/
def digitNat (c : Char) : Option Nat :=
  if '0' ≤ c && c ≤ '9' then some (c.toNat - 48) else none

/-- Value of a nonempty all-digit character list. -/
def digitsNat : List Char → Option Nat
  | [] => none
  | [c] => digitNat c
  | c :: rest => do
    let d ← digitNat c
    let r ← digitsNat rest
    pure (d * 10 ^ rest.length + r)

/-- pd.to_numeric on one cell, embedded for plain decimal literals
(optional minus sign, integer part, optional fractional part); this is
the shape of every numeric cell the benchmark emits. -/
def pyFloat (s : String) : Option ℚ := do
  let (neg, cs) :=
    match s.data with
    | '-' :: rest => (true, rest)
    | cs => (false, cs)
  let q : ℚ ←
    match splitSeq ['.'] cs with
    | [ip] => (digitsNat ip).map (fun n => (n : ℚ))
    | [[], fp] => (digitsNat fp).map (fun n => (n : ℚ) / 10 ^ fp.length)
    | [ip, []] => (digitsNat ip).map (fun n => (n : ℚ))
    | [ip, fp] => do
      let i ← digitsNat ip
      let f ← digitsNat fp
      pure ((i : ℚ) + (f : ℚ) / 10 ^ fp.length)
    | _ => none
  pure (if neg then -q else q)

/-- Python int(q): truncation toward zero. -/
def pyInt (q : ℚ) : Int := q.num.tdiv q.den

/-- pandas Series.mean as exact arithmetic: sum divided by length. -/
def meanQ (l : List ℚ) : ℚ := l.foldl (· + ·) 0 / (l.length : ℚ)

/-- pandas Series.min (0 for an empty list; the code paths below never
take the min of an empty column without failing first). -/
def minQ : List ℚ → ℚ
  | [] => 0
  | a :: as => as.foldl min a

/-- The kind of Python-level failure an embedded code path stops with. -/
inductive PyErr where
  /-- sys.exit() called after the external process wrote to stderr -/
  | exitCalled
  /-- IndexError: list index out of range -/
  | indexFault
  /-- NameError: loop variable never bound (loop over an empty list) -/
  | nameFault
  /-- TypeError: iterating a None output -/
  | typeFault
  /-- KeyError: missing DataFrame column -/
  | keyFault
  /-- ValueError: malformed table or non-numeric cell -/
  | valueFault
deriving DecidableEq

/-- One run dictionary of an Experiment, as built by generate(). -/
structure Run where
  mode : String
  cores : Nat
  endpoints : Nat
  command : List String
  output : Option (List String)
  usage : Option Int
  latency : Option Int
  latencyBreakdown : Option (Int × Int)
deriving DecidableEq

/-- Fresh run dictionary: generate() sets output (and every derived
field) to None. -/
def mkRun (mode : String) (cores endpoints : Nat) (command : List String) : Run :=
  { mode := mode, cores := cores, endpoints := endpoints, command := command,
    output := none, usage := none, latency := none, latencyBreakdown := none }

/-- The run dictionary EndpointScaling.generate appends for one grid
cell (cfg carries the configuration name and core count picked by the
if/elif/else chain on the mode). -/
def esRun (mode : String) (cfg : String × Nat) (endpoint : Nat) : Run :=
  mkRun mode cfg.2 endpoint
    ["python3", "main.py", "-v",
     "configuration/experiment_endpoint_scaling/" ++ cfg.1 ++
       natStr endpoint ++ ".cfg"]

/-- The inner loop of EndpointScaling.generate over the endpoint counts,
with the continue that skips endpoint-only cells with more than one
endpoint. -/
def esSeg (mode : String) (cfg : String × Nat) (endpoints : List Nat) : List Run :=
  endpoints.flatMap fun endpoint =>
    if mode = "endpoint" ∧ endpoint > 1 then [] else [esRun mode cfg endpoint]

/-- EndpointScaling.generate: outer loop over modes, inner loop over
endpoint counts. The mode string picks the configuration name and the
core count exactly as the if/elif/else chain does. -/
def generateES (modes : List String) (cores : List Nat) (endpoints : List Nat) :
    List Run :=
  modes.flatMap fun mode =>
    let cfg : String × Nat :=
      if mode = "cloud" then ("cloud_endpoint", cores.getD 0 0)
      else if mode = "edge" then ("edge_endpoint", cores.getD 1 0)
      else ("endpoint", cores.getD 2 0)
    esSeg mode cfg endpoints

/-- The modes list EndpointScaling.__init__ sets. -/
def esModes : List String := ["cloud", "edge", "endpoint"]

/-- The core counts EndpointScaling.__init__ sets. -/
def esCores : List Nat := [4, 2, 1]

/-- The endpoint counts EndpointScaling.__init__ sets. -/
def esEndpoints : List Nat := [1, 2, 4, 8]

/-- Timestamp prefix of a log file name: splits[0] + "_" + splits[1],
none when the name has no underscore (Python raises IndexError then). -/
def logStampOf (name : String) : Option String :=
  match pySplit "_" name with
  | s0 :: s1 :: _ => some (s0 ++ "_" ++ s1)
  | _ => none

/-- The loop body of Experiment.check_resume: walk the sorted log list;
for each log whose stamp is at least the threshold, open it (counted in
reads), store its content in runs[expI] and advance the cursor, breaking
once the cursor reaches len(runs). none embeds an uncaught Python
exception (IndexError on a malformed name or on an empty run list). -/
def resumeLoop (fs : String → List String) (th : String) :
    List String → List Run → Nat → Nat → Option (List Run × Nat)
  | [], runs, _, reads => some (runs, reads)
  | name :: rest, runs, expI, reads =>
    match logStampOf name with
    | none => none
    | some ts =>
      if strLe th ts then
        if h : expI < runs.length then
          let newRuns := runs.set expI { runs[expI] with output := some (fs name) }
          if expI + 1 = runs.length then some (newRuns, reads + 1)
          else resumeLoop fs th rest newRuns (expI + 1) (reads + 1)
        else none
      else resumeLoop fs th rest runs expI reads

/-- Stable insertion of one element into a sorted list. -/
def insertLe (le : String → String → Bool) (a : String) : List String → List String
  | [] => [a]
  | b :: bs => if le a b then a :: b :: bs else b :: insertLe le a bs

/-- Stable insertion sort. Python list.sort() is also a stable sort for
the same total order on strings, so the two produce identical output. -/
def sortStr (l : List String) : List String := l.foldr (insertLe strLe) []

/-- Experiment.check_resume: with no resume argument do nothing, else
keep the directory entries ending in ".log", sort them, and run the
cursor loop. The second component counts how many log files were
opened and read. -/
def checkResume (fs : String → List String) (dir : List String)
    (resume : Option String) (runs : List Run) : Option (List Run × Nat) :=
  match resume with
  | none => some (runs, 0)
  | some th =>
    resumeLoop fs th (sortStr (dir.filter (fun f => endsWithStr f ".log"))) runs 0 0

/-- Reference description of the cursor loop when every run is pending:
the k-th qualifying artifact content fills the k-th run. Used to state
what check_resume does. -/
def fillPending : List (List String) → List Run → List Run
  | [], runs => runs
  | _, [] => []
  | c :: cs, r :: rs => { r with output := some c } :: fillPending cs rs

/-- The qualifying artifacts of a directory listing: names ending in
".log", sorted, with a timestamp at least the threshold. -/
def qualLogs (dir : List String) (th : String) : List String :=
  (sortStr (dir.filter (fun f => endsWithStr f ".log"))).filter
    (fun n => strLe th ((logStampOf n).getD ""))

/-- Experiment.run_commands: for each run in order, skip runs with an
empty command or an output already present; otherwise execute the
command through the oracle ex (stdout lines, stderr lines). Nonempty
stderr is sys.exit() (exitCalled); otherwise the first stdout line
points at the fresh log file, whose content (read through rd) becomes
the run output. Empty stdout would make output[0] an IndexError. -/
def runCommands (ex : List String → List String × List String)
    (rd : String → List String) : List Run → Except PyErr (List Run)
  | [] => .ok []
  | run :: rest =>
    if run.command = [] then (runCommands ex rd rest).map (run :: ·)
    else if run.output ≠ none then (runCommands ex rd rest).map (run :: ·)
    else
      let res := ex run.command
      if res.2 ≠ [] then .error .exitCalled
      else
        match res.1 with
        | [] => .error .indexFault
        | first :: _ =>
          let logpath := (pySplit "and file at " (pyRstrip first)).getLastD ""
          (runCommands ex rd rest).map
            ({ run with output := some (rd logpath) } :: ·)

/-- The sentinel line marker parse_output scans for. -/
def markerStr : String := "Output in csv format"

/-- Does a line contain the sentinel? -/
def hasMarker (line : String) : Bool := strHas markerStr line

/-- The for/enumerate/break loop of parse_output: the index of the first
marker line; when no line matches, the loop leaves i at the last index;
when the output is empty, i is never bound (NameError on first use; the
embedding treats each run in isolation, which is exact for the first run
and for every nonempty output). -/
def pyFindI (lines : List String) : Except PyErr Nat :=
  match lines with
  | [] => .error .nameFault
  | _ =>
    .ok (match lines.findIdx? hasMarker with
         | some k => k
         | none => lines.length - 1)

/-- The slice line[1:-4] applied to a payload line. -/
def pySlice1m4 (s : String) : String :=
  ⟨(s.data.drop 1).take (s.data.length - 5)⟩

/-- Payload decoding of parse_output: split the payload on the literal
two-character backslash-n sequence into rows, split each row on commas,
and drop the first (synthetic index) field of every row. The first
remaining row is the header, the rest are data rows. -/
def decodePayload (payload : String) : List (List String) :=
  ((pySplit "\\n" payload).map (pySplit ",")).map (List.drop 1)

/-- A decoded pandas DataFrame: column names plus data rows. -/
structure PyDF where
  cols : List String
  rows : List (List String)
deriving DecidableEq

/-- pd.DataFrame(w2[1:], columns=w2[0]): the first decoded row names the
columns, the rest are data; a ragged row makes the constructor raise
(embedded as valueFault). -/
def toTable (payload : String) : Except PyErr PyDF :=
  let w2 := decodePayload payload
  let cols := w2.headD []
  let rows := w2.tail
  if rows.all (fun r => r.length = cols.length) then .ok ⟨cols, rows⟩
  else .error .valueFault

/-- df[name] followed by pd.to_numeric: the numeric values of a named
column; a missing column is a KeyError, a non-numeric cell a
ValueError. -/
def colNums (df : PyDF) (name : String) : Except PyErr (List ℚ) :=
  match df.cols.findIdx? (fun c => c = name) with
  | none => .error .keyFault
  | some j =>
    df.rows.mapM fun row =>
      match row.getD j "" |> pyFloat with
      | none => .error .valueFault
      | some q => .ok q

/-- The usage computation of EndpointScaling.parse_output on the numeric
worker column (mean policy): processed_rate = 1000 / mean * cores,
requested_rate = 5 * endpoints, usage = int(requested / processed * 100).
none embeds int(nan) (ValueError) on an empty column. -/
def esUsage (wProc : List ℚ) (cores endpoints : Nat) : Option Int :=
  if wProc = [] then none
  else
    some (pyInt ((5 * endpoints : ℚ) / (1000 / meanQ wProc * cores) * 100))

/-- The latency computation of EndpointScaling.parse_output:
int(mean(latency column)). -/
def esLatency (eLat : List ℚ) : Option Int :=
  if eLat = [] then none else some (pyInt (meanQ eLat))

/-- EndpointScaling.parse_output for one run: locate the sentinel, slice
the worker and endpoint payload lines (the same line twice in
endpoint-only mode), decode both tables, convert the designated numeric
columns, and derive usage and latency. -/
def esMetrics (mode : String) (cores endpoints : Nat) (output : List String) :
    Except PyErr (Int × Int) := do
  let i ← pyFindI output
  let some wline := output[i + 1]? | throw .indexFault
  let some eline :=
      (if mode ≠ "endpoint" then output[i + 2]? else output[i + 1]?)
    | throw .indexFault
  let wdf ← toTable (pySlice1m4 wline)
  let wProc ← colNums wdf "proc_time/data (ms)"
  let edf ← toTable (pySlice1m4 eline)
  let eLat ← colNums edf "latency_avg (ms)"
  let some usage := esUsage wProc cores endpoints | throw .valueFault
  let some latency := esLatency eLat | throw .valueFault
  pure (usage, latency)

/-- EndpointScaling.parse_output as a transformer of one run dictionary:
reads mode, cores, endpoints and output, writes usage and latency. -/
def parseRunES (r : Run) : Except PyErr Run :=
  match r.output with
  | none => .error .typeFault
  | some out =>
    (esMetrics r.mode r.cores r.endpoints out).map fun m =>
      { r with usage := some m.1, latency := some m.2 }

/-- run_commands followed by parse_output over the whole batch (the
remaining pipeline of main() after resume); an execution failure makes
the whole batch fail before any metric is computed. -/
def esBatch (ex : List String → List String × List String)
    (rd : String → List String) (runs : List Run) : Except PyErr (List Run) := do
  let executed ← runCommands ex rd runs
  executed.mapM parseRunES

/-- The latency breakdown computation of Deployments.parse_output on the
numeric columns (min policy): [int(min(proc)), int(min(latency) -
min(preproc) - min(proc))]. none embeds int(nan) on an empty column. -/
def deployBreakdown (wProc eLat ePre : List ℚ) : Option (Int × Int) :=
  if wProc = [] ∨ eLat = [] ∨ ePre = [] then none
  else
    some (pyInt (minQ wProc), pyInt (minQ eLat - minQ ePre - minQ wProc))

/-- The usage computation of Deployments.parse_output (min policy). -/
def deployUsage (wProc : List ℚ) (cores endpoints : Nat) : Option Int :=
  if wProc = [] then none
  else
    some (pyInt ((5 * endpoints : ℚ) / (1000 / minQ wProc * cores) * 100))

/-- The latency computation of Deployments.parse_output:
int(min(latency column)). -/
def deployLatency (eLat : List ℚ) : Option Int :=
  if eLat = [] then none else some (pyInt (minQ eLat))

/-- Deployments.parse_output for one run: same extraction as the scaling
variant plus the delay and preprocessing columns, min aggregation, and
the latency breakdown. -/
def deployMetrics (mode : String) (cores endpoints : Nat) (output : List String) :
    Except PyErr (Int × Int × (Int × Int)) := do
  let i ← pyFindI output
  let some wline := output[i + 1]? | throw .indexFault
  let some eline :=
      (if mode ≠ "endpoint" then output[i + 2]? else output[i + 1]?)
    | throw .indexFault
  let wdf ← toTable (pySlice1m4 wline)
  let wProc ← colNums wdf "proc_time/data (ms)"
  let _wDelay ← colNums wdf "delay_avg (ms)"
  let edf ← toTable (pySlice1m4 eline)
  let eLat ← colNums edf "latency_avg (ms)"
  let ePre ← colNums edf "preproc_time/data (ms)"
  let some usage := deployUsage wProc cores endpoints | throw .valueFault
  let some latency := deployLatency eLat | throw .valueFault
  let some breakdown := deployBreakdown wProc eLat ePre | throw .valueFault
  pure (usage, latency, breakdown)

/-- Deployments.parse_output as a transformer of one run dictionary. -/
def parseRunDep (r : Run) : Except PyErr Run :=
  match r.output with
  | none => .error .typeFault
  | some out =>
    (deployMetrics r.mode r.cores r.endpoints out).map fun m =>
      { r with usage := some m.1, latency := some m.2.1,
               latencyBreakdown := some m.2.2 }

/-- Follows the spec's words, for comparison with esUsage: usage =
round(requestedRate / processedRate * 100) with the mean-policy
processed rate; the spec states round where the code truncates. -/
def usageSpecRound (wProc : List ℚ) (cores endpoints : Nat) : Option Int :=
  if wProc = [] then none
  else
    some (round ((5 * endpoints : ℚ) / (1000 / meanQ wProc * cores) * 100))

/-- Follows the spec's words, for comparison with deployBreakdown: the
exact latency breakdown [processing, communication] with processing =
min(worker proc time) and communication = min(latency) - min(preproc) -
min(proc), with no integer conversion. -/
def breakdownSpec (wProc eLat ePre : List ℚ) : Option (ℚ × ℚ) :=
  if wProc = [] ∨ eLat = [] ∨ ePre = [] then none
  else some (minQ wProc, minQ eLat - minQ ePre - minQ wProc)

/-- Modelled from the spec: the escaped-payload encoder that the external
benchmark applies before printing (not part of this repository). One
line per logical row, a synthetic leading index field per row, fields
comma-delimited, rows delimited by the literal backslash-n sequence. -/
def encLine (i : Nat) (row : List String) : List Char :=
  joinSep [','] ((natStr i :: row).map String.data)

/-- Modelled from the spec: encode a table (header plus data rows) into
one escaped payload string, rows indexed from zero, header first. -/
def encodeTable (header : List String) (rows : List (List String)) : String :=
  ⟨joinSep ['\\', 'n'] (((header :: rows).enum).map fun p => encLine p.1 p.2)⟩

/-- Concrete resume scenario: the three artifact names T1 < T2 < T3. -/
def c2wDir : List String :=
  ["2024-01-03_10:00:00_c.log", "notalog.txt", "2024-01-01_10:00:00_a.log",
   "2024-01-02_10:00:00_b.log"]

/-- Concrete resume scenario: contents of the three artifacts. -/
def c2wFs : String → List String := fun n =>
  if n = "2024-01-02_10:00:00_b.log" then ["content T2"]
  else if n = "2024-01-03_10:00:00_c.log" then ["content T3"] else ["content T1"]

/-- Concrete resume scenario: the threshold, equal to the stamp of T2. -/
def c2wTh : String := "2024-01-02_10:00:00"

/-- Concrete resume scenario: five pending runs. -/
def c2wRuns : List Run := List.replicate 5 (mkRun "cloud" 4 1 ["python3"])

deriving instance DecidableEq for Except

/-- A payload cell the escaped format can represent losslessly: it
contains neither a comma (the field delimiter) nor the literal
backslash-n sequence (the row delimiter). -/
def goodCell (s : String) : Prop :=
  (',' ∉ s.data) ∧ subOf ['\\', 'n'] s.data = false

instance (s : String) : Decidable (goodCell s) :=
  inferInstanceAs (Decidable ((',' ∉ s.data) ∧ subOf ['\\', 'n'] s.data = false))

/-- Scan safety of a chunk between separators: at no position inside the
chunk does the separator match, even with the separator itself appended
right after the chunk. -/
def SafeChunk (sep p : List Char) : Prop :=
  ∀ i, i < p.length → prefOf sep (p.drop i ++ sep) = false

/-- Concrete raw output for the idempotence witness, scaling variant:
sentinel line, then worker and endpoint payload lines shaped so that the
line[1:-4] slice yields the escaped payload. -/
def c9wOutES : List String :=
  ["Output in csv format",
   "Z0,proc_time/data (ms)\\n1,100ZZZZ",
   "Z0,latency_avg (ms)\\n1,200ZZZZ"]

/-- A run carrying that output. -/
def c9wRunES : Run := { mkRun "cloud" 4 2 ["python3"] with output := some c9wOutES }

/-- The same run after parsing: usage 25, latency 200. -/
def c9wRunES2 : Run := { c9wRunES with usage := some 25, latency := some 200 }

/-- Concrete raw output for the idempotence witness, deployments
variant, with the extra delay and preprocessing columns. -/
def c9wOutDep : List String :=
  ["Output in csv format",
   "Z0,proc_time/data (ms),delay_avg (ms)\\n1,50,10ZZZZ",
   "Z0,latency_avg (ms),preproc_time/data (ms)\\n1,200,30ZZZZ"]

/-- A run carrying that output. -/
def c9wRunDep : Run := { mkRun "cloud" 4 4 ["python3"] with output := some c9wOutDep }

/-- The same run after parsing: usage 25, latency 200, breakdown (50, 120). -/
def c9wRunDep2 : Run :=
  { c9wRunDep with usage := some 25, latency := some 200,
                   latencyBreakdown := some (50, 120) }

theorem esRun_mode (mode : String) (cfg : String × Nat) (e : Nat) :
    (esRun mode cfg e).mode = mode := rfl

/-- How many runs of one mode segment survive the filter for the
endpoint-only mode: all cells with endpoint count at most one when the
segment is the endpoint-only one, none otherwise. -/
theorem esSeg_filter_len (mode : String) (cfg : String × Nat) :
    ∀ eps : List Nat,
      ((esSeg mode cfg eps).filter (fun r => r.mode = "endpoint")).length =
        if mode = "endpoint" then (eps.filter (fun e => e ≤ 1)).length else 0 := by
  intro eps
  induction eps with
  | nil => simp [esSeg]
  | cons e es ih =>
    by_cases hm : mode = "endpoint"
    · subst hm
      by_cases he : e > 1
      · have h1 : ¬ e ≤ 1 := by omega
        simp [esSeg, List.flatMap_cons, he, h1] at ih ⊢
        simpa [esSeg] using ih
      · have h1 : e ≤ 1 := by omega
        simp [esSeg, List.flatMap_cons, he, h1, esRun, mkRun] at ih ⊢
        simpa [esSeg] using ih
    · have hcond : ¬ (mode = "endpoint" ∧ e > 1) := fun h => hm h.1
      simp [esSeg, List.flatMap_cons, hcond, esRun, mkRun, hm] at ih ⊢
      simpa [esSeg] using ih

/-- generateES over the declared modes splits into the three mode
segments with their configuration names and core counts resolved. -/
theorem generateES_decomp (eps : List Nat) :
    generateES esModes esCores eps =
      esSeg "cloud" ("cloud_endpoint", 4) eps ++
        (esSeg "edge" ("edge_endpoint", 2) eps ++
          (esSeg "endpoint" ("endpoint", 1) eps ++ [])) := rfl

/-- C1 counterexample: supply the endpoint-count list [2]. The skip rule
then generates no endpoint-only run at all, so the endpoint-only mode
does not generate exactly one run regardless of the endpoint-count list
supplied. -/
theorem c1_endpoint_only_cex :
    ((generateES esModes esCores [2]).filter
      (fun r => r.mode = "endpoint")).length ≠ 1 := by decide

/-- C1 (amended): for the declared grid (modes cloud, edge, endpoint-only
with cores 4, 2, 1 and endpoint counts 1, 2, 4, 8) generate produces
exactly 9 runs in the order cloud 1,2,4,8, edge 1,2,4,8, endpoint-only 1;
and for an arbitrary endpoint-count list the skip rule gives the
endpoint-only mode one run per entry that is at most 1 (so exactly one
run only when exactly one entry is 1, as with the supplied list). -/
theorem c1_generator_grid :
    ((generateES esModes esCores esEndpoints).map fun r => (r.mode, r.endpoints)) =
      [("cloud", 1), ("cloud", 2), ("cloud", 4), ("cloud", 8),
       ("edge", 1), ("edge", 2), ("edge", 4), ("edge", 8), ("endpoint", 1)] ∧
    (generateES esModes esCores esEndpoints).length = 9 ∧
    ∀ eps : List Nat,
      ((generateES esModes esCores eps).filter
        (fun r => r.mode = "endpoint")).length =
        (eps.filter (fun e => e ≤ 1)).length := by
  refine ⟨by decide, by decide, fun eps => ?_⟩
  rw [generateES_decomp]
  simp only [List.filter_append, List.length_append, esSeg_filter_len]
  simp

theorem mem_insertLe (le : String → String → Bool) (a x : String) :
    ∀ l : List String, a ∈ insertLe le x l ↔ a = x ∨ a ∈ l := by
  intro l
  induction l with
  | nil => simp [insertLe]
  | cons b bs ih =>
    by_cases h : le x b
    · simp [insertLe, h]
    · simp [insertLe, h, ih]
      tauto

theorem mem_sortStr (a : String) : ∀ l : List String, a ∈ sortStr l ↔ a ∈ l := by
  intro l
  induction l with
  | nil => simp [sortStr]
  | cons b bs ih =>
    simp only [sortStr, List.foldr_cons] at ih ⊢
    rw [mem_insertLe]
    simp [ih]

/-- The cursor loop of check_resume on an all-pending tail of runs, with
no more qualifying artifacts than pending runs: every qualifying
artifact, in order, fills the next pending run, one file read each. -/
theorem resumeLoop_fill (fs : String → List String) (th : String) :
    ∀ (logs : List String) (acc rest : List Run) (reads : Nat),
      (∀ r ∈ rest, r.output = none) →
      (∀ n ∈ logs, (logStampOf n).isSome) →
      (logs.filter fun n => strLe th ((logStampOf n).getD "")).length ≤ rest.length →
      resumeLoop fs th logs (acc ++ rest) acc.length reads =
        some (acc ++ fillPending
                ((logs.filter fun n => strLe th ((logStampOf n).getD "")).map fs) rest,
              reads + (logs.filter fun n => strLe th ((logStampOf n).getD "")).length) := by
  intro logs
  induction logs with
  | nil => intro acc rest reads _ _ _; simp [resumeLoop, fillPending]
  | cons name logs ih =>
    intro acc rest reads hp hw hlen
    obtain ⟨ts, hts⟩ := Option.isSome_iff_exists.mp (hw name (by simp))
    by_cases hq : strLe th ts
    · have hfil :
          ((name :: logs).filter fun n => strLe th ((logStampOf n).getD "")) =
            name :: (logs.filter fun n => strLe th ((logStampOf n).getD "")) := by
        simp [List.filter_cons, hts, hq]
      rw [hfil] at hlen ⊢
      obtain ⟨r, rs, rfl⟩ : ∃ r rs, rest = r :: rs := by
        cases rest with
        | nil => simp at hlen
        | cons r rs => exact ⟨r, rs, rfl⟩
      have hbound : acc.length < (acc ++ r :: rs).length := by
        simp [List.length_append]
      have hget : (acc ++ r :: rs)[acc.length] = r := by
        rw [List.getElem_append_right (Nat.le_refl _)]
        simp
      have hset : ∀ v : Run, (acc ++ r :: rs).set acc.length v = acc ++ v :: rs := by
        intro v
        rw [List.set_append_right _ _ (Nat.le_refl _)]
        simp
      rw [resumeLoop, hts]
      simp only [hq, if_true, dif_pos hbound, hget, hset]
      cases rs with
      | nil =>
        have hcond : acc.length + 1 = (acc ++ [r]).length := by simp
        rw [if_pos hcond]
        have h0 : (logs.filter fun n => strLe th ((logStampOf n).getD "")).length = 0 := by
          have h1 := hlen
          simp only [List.length_cons, List.length_nil] at h1
          omega
        have hfe := List.eq_nil_of_length_eq_zero h0
        simp [hfe, fillPending]
      | cons r2 rs2 =>
        have hcond : ¬ (acc.length + 1 = (acc ++ r :: r2 :: rs2).length) := by
          simp [List.length_append]
        rw [if_neg hcond]
        have hih := ih (acc ++ [{ r with output := some (fs name) }]) (r2 :: rs2) (reads + 1)
          (fun x hx => hp x (List.mem_cons_of_mem _ hx))
          (fun n hn => hw n (List.mem_cons_of_mem _ hn))
          (by
            have h1 := hlen
            simp only [List.length_cons] at h1 ⊢
            omega)
        have harg : resumeLoop fs th logs (acc ++ { r with output := some (fs name) } :: r2 :: rs2)
              (acc.length + 1) (reads + 1) =
            resumeLoop fs th logs ((acc ++ [{ r with output := some (fs name) }]) ++ r2 :: rs2)
              ((acc ++ [{ r with output := some (fs name) }]).length) (reads + 1) := by
          rw [List.append_cons acc _ (r2 :: rs2)]
          congr 1
          simp
        rw [harg, hih]
        simp only [fillPending, List.map_cons, List.length_cons, List.append_assoc,
          List.singleton_append, Option.some.injEq, Prod.mk.injEq]
        exact ⟨trivial, by omega⟩
    · have hfil :
          ((name :: logs).filter fun n => strLe th ((logStampOf n).getD "")) =
            logs.filter fun n => strLe th ((logStampOf n).getD "") := by
        simp [List.filter_cons, hts, hq]
      rw [hfil] at hlen ⊢
      rw [resumeLoop, hts]
      simp only [hq, if_false]
      exact ih acc rest reads hp (fun n hn => hw n (List.mem_cons_of_mem _ hn)) hlen

/-- C2: with a resume threshold given, check_resume walks the
lexicographically sorted .log artifacts and assigns the content of each
artifact whose timestamp is at least the threshold to the next pending
run, advancing a single cursor: when every run is pending (as after
generate) and there are no more qualifying artifacts than runs, the
k-th qualifying artifact fills the k-th run and the later runs stay
unset; artifacts below the threshold are ignored. -/
theorem c2_resume_positional (fs : String → List String) (dir : List String)
    (th : String) (runs : List Run)
    (hp : ∀ r ∈ runs, r.output = none)
    (hw : ∀ n ∈ dir.filter (fun f => endsWithStr f ".log"), (logStampOf n).isSome)
    (hlen : (qualLogs dir th).length ≤ runs.length) :
    checkResume fs dir (some th) runs =
      some (fillPending ((qualLogs dir th).map fs) runs, (qualLogs dir th).length) := by
  have hw2 : ∀ n ∈ sortStr (dir.filter (fun f => endsWithStr f ".log")),
      (logStampOf n).isSome :=
    fun n hn => hw n ((mem_sortStr n _).mp hn)
  have h := resumeLoop_fill fs th (sortStr (dir.filter (fun f => endsWithStr f ".log")))
    [] runs 0 hp hw2 (by simpa [qualLogs] using hlen)
  simpa [checkResume, qualLogs] using h

/-- C2 witness: three artifacts with stamps T1 < T2 < T3, threshold T2,
five pending runs: runs 0 and 1 receive the contents of T2 and T3, runs
2 to 4 stay unset, T1 is ignored, two files are read. -/
theorem c2_resume_positional_witness :
    checkResume c2wFs c2wDir (some c2wTh) c2wRuns =
      some ([{ mkRun "cloud" 4 1 ["python3"] with output := some ["content T2"] },
             { mkRun "cloud" 4 1 ["python3"] with output := some ["content T3"] },
             mkRun "cloud" 4 1 ["python3"], mkRun "cloud" 4 1 ["python3"],
             mkRun "cloud" 4 1 ["python3"]], 2) := by
  have h := c2_resume_positional c2wFs c2wDir c2wTh c2wRuns
    (by decide) (by decide) (by decide)
  exact h.trans (by decide)

/-- The cursor loop terminates normally whenever the cursor starts in
range, and it opens at most as many files as there are runs past the
cursor. -/
theorem resumeLoop_reads (fs : String → List String) (th : String) :
    ∀ (logs : List String) (runs : List Run) (expI reads : Nat),
      (∀ n ∈ logs, (logStampOf n).isSome) →
      expI < runs.length →
      ∃ rs n, resumeLoop fs th logs runs expI reads = some (rs, n) ∧
        n ≤ reads + (runs.length - expI) := by
  intro logs
  induction logs with
  | nil =>
    intro runs expI reads _ _
    exact ⟨runs, reads, rfl, by omega⟩
  | cons name logs ih =>
    intro runs expI reads hw hlt
    obtain ⟨ts, hts⟩ := Option.isSome_iff_exists.mp (hw name (by simp))
    rw [resumeLoop, hts]
    by_cases hq : strLe th ts
    · simp only [hq, if_true, dif_pos hlt]
      by_cases hend : expI + 1 = runs.length
      · rw [if_pos hend]
        exact ⟨_, _, rfl, by omega⟩
      · rw [if_neg hend]
        have hlt2 : expI + 1 <
            (runs.set expI { runs[expI] with output := some (fs name) }).length := by
          rw [List.length_set]; omega
        obtain ⟨rs, n, heq, hn⟩ :=
          ih (runs.set expI { runs[expI] with output := some (fs name) })
            (expI + 1) (reads + 1) (fun x hx => hw x (List.mem_cons_of_mem _ hx)) hlt2
        refine ⟨rs, n, heq, ?_⟩
        rw [List.length_set] at hn
        omega
    · simp only [hq, if_false]
      exact ih runs expI reads (fun x hx => hw x (List.mem_cons_of_mem _ hx)) hlt

/-- C10: resume matching considers only directory entries ending in
".log" (running it on the directory or on its .log-filtered listing is
the same, so no other file can ever become a run output), it terminates
normally for a nonempty run list with well-formed artifact names, and
the cursor break bounds the number of log files read by the number of
runs. -/
theorem c10_log_suffix_and_read_bound (fs : String → List String) (dir : List String)
    (th : String) (runs : List Run) (hne : runs ≠ [])
    (hw : ∀ n ∈ dir.filter (fun f => endsWithStr f ".log"), (logStampOf n).isSome) :
    checkResume fs dir (some th) runs =
      checkResume fs (dir.filter (fun f => endsWithStr f ".log")) (some th) runs ∧
    (checkResume fs dir (some th) runs).isSome ∧
    ∀ rs reads, checkResume fs dir (some th) runs = some (rs, reads) →
      reads ≤ runs.length := by
  have hfil : (dir.filter (fun f => endsWithStr f ".log")).filter
      (fun f => endsWithStr f ".log") = dir.filter (fun f => endsWithStr f ".log") := by
    rw [List.filter_filter]
    simp
  have hw2 : ∀ n ∈ sortStr (dir.filter (fun f => endsWithStr f ".log")),
      (logStampOf n).isSome :=
    fun n hn => hw n ((mem_sortStr n _).mp hn)
  have hlt : 0 < runs.length := List.length_pos.mpr hne
  obtain ⟨rs, n, heq, hn⟩ :=
    resumeLoop_reads fs th (sortStr (dir.filter (fun f => endsWithStr f ".log")))
      runs 0 0 hw2 hlt
  refine ⟨by simp [checkResume, hfil], ?_, ?_⟩
  · simp [checkResume, heq]
  · intro rs2 reads2 h2
    rw [checkResume] at h2
    rw [h2] at heq
    have hreads : reads2 = n := congrArg Prod.snd (Option.some.inj heq)
    omega

/-- C10 witness: one run, two qualifying artifacts and one stray file;
the stray file is ignored, resume succeeds, and the cursor break reads
only one artifact (at most the number of runs). -/
theorem c10_log_suffix_and_read_bound_witness :
    checkResume (fun _ => ["L"])
        ["2024-01-05_00:00:00_a.log", "x.txt", "2024-01-06_00:00:00_b.log"]
        (some "2024-01-01_00:00:00") [mkRun "cloud" 4 1 []] =
      checkResume (fun _ => ["L"])
        (["2024-01-05_00:00:00_a.log", "x.txt",
          "2024-01-06_00:00:00_b.log"].filter (fun f => endsWithStr f ".log"))
        (some "2024-01-01_00:00:00") [mkRun "cloud" 4 1 []] ∧
    (1 : Nat) ≤ [mkRun "cloud" 4 1 []].length := by
  have h := c10_log_suffix_and_read_bound (fun _ => ["L"])
    ["2024-01-05_00:00:00_a.log", "x.txt", "2024-01-06_00:00:00_b.log"]
    "2024-01-01_00:00:00" [mkRun "cloud" 4 1 []] (by decide) (by decide)
  exact ⟨h.1, h.2.2 [{ mkRun "cloud" 4 1 [] with output := some ["L"] }] 1 (by decide)⟩

/-- run_commands never touches a run that already has output, and the
only runs it changes are those that had none: on success, every run of
the result either is its input run unchanged, or its input run had no
output. -/
theorem runCommands_writeOnce (ex : List String → List String × List String)
    (rd : String → List String) :
    ∀ runs runs2, runCommands ex rd runs = .ok runs2 →
      ∀ (i : Nat) (r r2 : Run), runs[i]? = some r → runs2[i]? = some r2 →
        (r.output ≠ none → r2 = r) ∧ (r2 ≠ r → r.output = none) := by
  intro runs
  induction runs with
  | nil =>
    intro runs2 h i r r2 hr hr2
    simp [runCommands] at h
    subst h
    simp at hr
  | cons run rest ih =>
    intro runs2 h i r r2 hr hr2
    rw [runCommands] at h
    by_cases hcmd : run.command = []
    · rw [if_pos hcmd] at h
      cases hrest : runCommands ex rd rest with
      | error e => rw [hrest] at h; simp [Except.map] at h
      | ok rest2 =>
        rw [hrest] at h
        simp only [Except.map, Except.ok.injEq] at h
        subst h
        cases i with
        | zero =>
          simp at hr hr2
          subst hr; subst hr2
          exact ⟨fun _ => rfl, fun hne => absurd rfl hne⟩
        | succ j =>
          simp at hr hr2
          exact ih rest2 hrest j r r2 hr hr2
    · rw [if_neg hcmd] at h
      by_cases hout : run.output ≠ none
      · rw [if_pos hout] at h
        cases hrest : runCommands ex rd rest with
        | error e => rw [hrest] at h; simp [Except.map] at h
        | ok rest2 =>
          rw [hrest] at h
          simp only [Except.map, Except.ok.injEq] at h
          subst h
          cases i with
          | zero =>
            simp at hr hr2
            subst hr; subst hr2
            exact ⟨fun _ => rfl, fun hne => absurd rfl hne⟩
          | succ j =>
            simp at hr hr2
            exact ih rest2 hrest j r r2 hr hr2
      · rw [if_neg hout] at h
        push_neg at hout
        by_cases herr : (ex run.command).2 ≠ []
        · rw [if_pos herr] at h
          simp at h
        · rw [if_neg herr] at h
          cases hfst : (ex run.command).1 with
          | nil => rw [hfst] at h; simp at h
          | cons first others =>
            rw [hfst] at h
            cases hrest : runCommands ex rd rest with
            | error e => rw [hrest] at h; simp [Except.map] at h
            | ok rest2 =>
              rw [hrest] at h
              simp only [Except.map, Except.ok.injEq] at h
              subst h
              cases i with
              | zero =>
                simp at hr hr2
                subst hr; subst hr2
                exact ⟨fun hno => absurd hout hno, fun _ => hout⟩
              | succ j =>
                simp at hr hr2
                exact ih rest2 hrest j r r2 hr hr2

/-- C8: raw output is write-once, assigned by exactly one of resume or
execution: starting from the all-pending runs that generate() builds,
whatever resume fills is never overwritten by run_commands (it keeps the
very value resume wrote), and any run whose output changed during
execution had no output after resume. -/
theorem c8_raw_output_write_once (fs : String → List String) (dir : List String)
    (resume : Option String) (runs0 : List Run)
    (ex : List String → List String × List String) (rd : String → List String)
    (runs1 runs2 : List Run) (reads : Nat)
    (h0 : ∀ r ∈ runs0, r.output = none)
    (hres : checkResume fs dir resume runs0 = some (runs1, reads))
    (hexec : runCommands ex rd runs1 = .ok runs2) :
    ∀ (i : Nat) (r1 r2 : Run), runs1[i]? = some r1 → runs2[i]? = some r2 →
      (∀ v, r1.output = some v → r2.output = some v) ∧
      (r2.output ≠ r1.output → r1.output = none) := by
  intro i r1 r2 h1 h2
  have h := runCommands_writeOnce ex rd runs1 runs2 hexec i r1 r2 h1 h2
  constructor
  · intro v hv
    have hr : r2 = r1 := h.1 (by rw [hv]; exact Option.noConfusion)
    rw [hr, hv]
  · intro hne
    exact h.2 (fun he => hne (by rw [he]))

/-- C8 witness: two pending runs; resume fills the first from the one
artifact, execution fills the second; the resume-filled run keeps its
artifact content through execution and the execution-filled run had no
output after resume. -/
theorem c8_raw_output_write_once_witness :
    ({ mkRun "cloud" 4 1 ["python3"] with output := some ["artifact"] } : Run).output =
      some ["artifact"] ∧
    (mkRun "edge" 2 1 ["python3"]).output = none := by
  have h := c8_raw_output_write_once (fun _ => ["artifact"])
    ["2024-01-02_00:00:00_a.log"] (some "2024-01-01_00:00:00")
    [mkRun "cloud" 4 1 ["python3"], mkRun "edge" 2 1 ["python3"]]
    (fun _ => (["done and file at p.log"], [])) (fun _ => ["exec out"])
    [{ mkRun "cloud" 4 1 ["python3"] with output := some ["artifact"] },
     mkRun "edge" 2 1 ["python3"]]
    [{ mkRun "cloud" 4 1 ["python3"] with output := some ["artifact"] },
     { mkRun "edge" 2 1 ["python3"] with output := some ["exec out"] }]
    1 (by decide) (by decide) (by decide)
  refine ⟨?_, ?_⟩
  · exact (h 0 { mkRun "cloud" 4 1 ["python3"] with output := some ["artifact"] }
      { mkRun "cloud" 4 1 ["python3"] with output := some ["artifact"] }
      (by decide) (by decide)).1 ["artifact"] rfl
  · exact (h 1 (mkRun "edge" 2 1 ["python3"])
      { mkRun "edge" 2 1 ["python3"] with output := some ["exec out"] }
      (by decide) (by decide)).2 (by decide)

/-- C6: if some run in the batch is pending (no output and a nonempty
command) and executing its command yields nonempty error output, then —
provided every successful execution prints the log pointer line, which
the external benchmark contract guarantees — run_commands stops with the
sys.exit abort, and so does the batch pipeline: no run reaches the
metrics stage and no partial result is produced. -/
theorem c6_fatal_abort (ex : List String → List String × List String)
    (rd : String → List String) :
    ∀ runs : List Run,
      (∃ r ∈ runs, r.command ≠ [] ∧ r.output = none ∧ (ex r.command).2 ≠ []) →
      (∀ r ∈ runs, r.command ≠ [] → r.output = none → (ex r.command).2 = [] →
        (ex r.command).1 ≠ []) →
      runCommands ex rd runs = .error .exitCalled ∧
        esBatch ex rd runs = .error .exitCalled := by
  intro runs
  induction runs with
  | nil =>
    intro hfail _
    obtain ⟨r, hr, -⟩ := hfail
    simp at hr
  | cons run rest ih =>
    intro hfail hout
    have hbatch : runCommands ex rd (run :: rest) = .error .exitCalled →
        esBatch ex rd (run :: rest) = .error .exitCalled := by
      intro h
      simp only [esBatch, h]
      rfl
    suffices h : runCommands ex rd (run :: rest) = .error .exitCalled from
      ⟨h, hbatch h⟩
    rw [runCommands]
    by_cases hcmd : run.command = []
    · rw [if_pos hcmd]
      have hrest : ∃ r ∈ rest, r.command ≠ [] ∧ r.output = none ∧ (ex r.command).2 ≠ [] := by
        obtain ⟨r, hr, hne, hrest⟩ := hfail
        rcases List.mem_cons.mp hr with rfl | hmem
        · exact absurd hcmd hne
        · exact ⟨r, hmem, hne, hrest⟩
      rw [(ih hrest (fun r hr => hout r (List.mem_cons_of_mem _ hr))).1]
      rfl
    · rw [if_neg hcmd]
      by_cases houtp : run.output ≠ none
      · rw [if_pos houtp]
        have hrest : ∃ r ∈ rest, r.command ≠ [] ∧ r.output = none ∧ (ex r.command).2 ≠ [] := by
          obtain ⟨r, hr, hne, hno, hrr⟩ := hfail
          rcases List.mem_cons.mp hr with rfl | hmem
          · exact absurd hno houtp
          · exact ⟨r, hmem, hne, hno, hrr⟩
        rw [(ih hrest (fun r hr => hout r (List.mem_cons_of_mem _ hr))).1]
        rfl
      · rw [if_neg houtp]
        push_neg at houtp
        by_cases herr : (ex run.command).2 ≠ []
        · rw [if_pos herr]
        · rw [if_neg herr]
          push_neg at herr
          cases hfst : (ex run.command).1 with
          | nil => exact absurd hfst (hout run (by simp) hcmd houtp herr)
          | cons first others =>
            have hrest : ∃ r ∈ rest, r.command ≠ [] ∧ r.output = none ∧
                (ex r.command).2 ≠ [] := by
              obtain ⟨r, hr, hne, hno, hrr⟩ := hfail
              rcases List.mem_cons.mp hr with rfl | hmem
              · exact absurd herr hrr
              · exact ⟨r, hmem, hne, hno, hrr⟩
            rw [(ih hrest (fun r hr => hout r (List.mem_cons_of_mem _ hr))).1]
            rfl

/-- C6 witness: a single pending run whose execution writes to stderr
aborts the batch with the sys.exit path before any metric stage. -/
theorem c6_fatal_abort_witness :
    runCommands (fun _ => ([], ["stderr line"])) (fun _ => [])
      [mkRun "cloud" 4 1 ["bad"]] = .error .exitCalled ∧
    esBatch (fun _ => ([], ["stderr line"])) (fun _ => [])
      [mkRun "cloud" 4 1 ["bad"]] = .error .exitCalled :=
  c6_fatal_abort _ _ _ (by decide) (by decide)

/-- C3: when no line of a nonempty raw output contains the sentinel
"Output in csv format", the enumerate/break loop leaves i at the last
line index and parse_output fails with the out-of-range access at
output[i + 1] — a Python IndexError — not with an explicit extraction
error (no such explicit error exists on this path in the code; the spec
requires one). -/
theorem c3_marker_missing_indexfault (mode : String) (cores endpoints : Nat)
    (output : List String) (hne : output ≠ [])
    (hnom : ∀ line ∈ output, hasMarker line = false) :
    esMetrics mode cores endpoints output = .error .indexFault := by
  have hidx : output.findIdx? hasMarker = none := by
    rw [List.findIdx?_eq_none_iff]
    exact hnom
  have hfind : pyFindI output = .ok (output.length - 1) := by
    cases output with
    | nil => exact absurd rfl hne
    | cons a as => simp [pyFindI, hidx]
  have hget : output[output.length - 1 + 1]? = none := by
    apply List.getElem?_eq_none
    have : 0 < output.length := List.length_pos.mpr hne
    omega
  simp [esMetrics, hfind, hget, Bind.bind, Except.bind]
  rfl

/-- C3 witness: the one-line output with no sentinel makes the scaling
extraction fail with the IndexError embedding. -/
theorem c3_marker_missing_indexfault_witness :
    (["hello"] : List String) ≠ [] ∧
    esMetrics "cloud" 4 1 ["hello"] = .error .indexFault :=
  ⟨by decide, c3_marker_missing_indexfault "cloud" 4 1 ["hello"] (by decide) (by decide)⟩

/-- Python int() truncation agrees with floor on nonnegative values. -/
theorem pyInt_eq_floor (q : ℚ) (h : 0 ≤ q) : pyInt q = ⌊q⌋ := by
  rw [pyInt, Rat.floor_def]
  exact Int.tdiv_eq_ediv (Rat.num_nonneg.mpr h) (Int.natCast_nonneg _)

/-- Python int() truncation agrees with ceiling on nonpositive values. -/
theorem pyInt_eq_ceil (q : ℚ) (h : q ≤ 0) : pyInt q = ⌈q⌉ := by
  have h2 : 0 ≤ -q := neg_nonneg.mpr h
  have hfl : pyInt (-q) = ⌊-q⌋ := pyInt_eq_floor _ h2
  rw [pyInt, Rat.neg_num, Rat.neg_den, Int.neg_tdiv, Int.floor_neg] at hfl
  rw [pyInt]
  omega

/-- C4 counterexample: a single worker processing time of 103 ms with
one core and one endpoint makes the exact percentage 51.5; the code
truncates to 51 while the claimed round gives 52. -/
theorem c4_round_cex :
    esUsage [103] 1 1 = some 51 ∧ usageSpecRound [103] 1 1 = some 52 ∧
      (51 : Int) ≠ 52 := by
  refine ⟨by with_unfolding_all decide, by with_unfolding_all decide, by decide⟩

/-- C4 (amended): under the mean policy the code sets usage to the
Python int truncation of requestedRate / processedRate * 100 — the floor
of that nonnegative ratio, not its rounding — with processedRate =
(1000 / mean(procTime)) * cores and requestedRate = 5 * endpointCount;
the worked instance (mean 100 ms, 4 cores, 2 endpoints) gives
processedRate 40, requestedRate 10, usage 25, and usage can exceed 100
(mean 300 ms, 1 core, 1 endpoint gives 150). -/
theorem c4_usage_truncation (wProc : List ℚ) (cores endpoints : Nat)
    (h : 0 < meanQ wProc) :
    esUsage wProc cores endpoints =
      some ⌊(5 * endpoints : ℚ) / (1000 / meanQ wProc * cores) * 100⌋ ∧
    1000 / meanQ [100, 100] * 4 = 40 ∧
    (5 * (2 : ℚ) = 10) ∧
    esUsage [100, 100] 4 2 = some 25 ∧
    esUsage [300] 1 1 = some 150 := by
  refine ⟨?_, by with_unfolding_all decide, by norm_num,
    by with_unfolding_all decide, by with_unfolding_all decide⟩
  have hne : wProc ≠ [] := by
    intro he
    rw [he] at h
    simp [meanQ] at h
  rw [esUsage, if_neg hne]
  congr 1
  apply pyInt_eq_floor
  have h1 : (0 : ℚ) ≤ 5 * endpoints := by positivity
  have h2 : (0 : ℚ) ≤ 1000 / meanQ wProc * cores := by positivity
  have h3 : (0 : ℚ) ≤ (5 * endpoints : ℚ) / (1000 / meanQ wProc * cores) :=
    div_nonneg h1 h2
  positivity

/-- C4 witness: the truncation formula applied at the 103 ms instance. -/
theorem c4_usage_truncation_witness :
    (0 : ℚ) < meanQ [103] ∧
    esUsage [103] 1 1 =
      some ⌊(5 * (1 : Nat) : ℚ) / (1000 / meanQ [103] * (1 : Nat)) * 100⌋ :=
  ⟨by with_unfolding_all decide, (c4_usage_truncation [103] 1 1
    (by with_unfolding_all decide)).1⟩

/-- C5 counterexample: a worker minimum of 50.5 ms (endpoint minimum
latency 200 ms, preprocessing minimum 30 ms) makes the exact breakdown
[50.5, 119.5]; the code stores the int truncations [50, 119], so the
stored breakdown is not the claimed exact pair. -/
theorem c5_breakdown_cex :
    deployBreakdown [101 / 2] [200] [30] = some (50, 119) ∧
    breakdownSpec [101 / 2] [200] [30] = some (101 / 2, 239 / 2) ∧
    ((50 : ℚ), (119 : ℚ)) ≠ ((101 / 2 : ℚ), (239 / 2 : ℚ)) := by
  refine ⟨by with_unfolding_all decide, by with_unfolding_all decide,
    by with_unfolding_all decide⟩

/-- C5 (amended): under the min policy with a breakdown, the code stores
the Python int truncations of the two components processing =
min(procTime) and communication = min(latency) - min(preproc) -
min(procTime) — floor for a nonnegative component, ceiling for a
negative one — and a negative communication component is reported
truncated but unclamped; the 50/200/30 instance gives [50, 120] and the
90/100/30 instance reports the negative communication -20 as-is. -/
theorem c5_breakdown_truncation (wProc eLat ePre : List ℚ)
    (hw : wProc ≠ []) (he : eLat ≠ []) (hp : ePre ≠ [])
    (hproc : 0 ≤ minQ wProc) :
    deployBreakdown wProc eLat ePre =
      some (⌊minQ wProc⌋,
        if 0 ≤ minQ eLat - minQ ePre - minQ wProc
        then ⌊minQ eLat - minQ ePre - minQ wProc⌋
        else ⌈minQ eLat - minQ ePre - minQ wProc⌉) ∧
    deployBreakdown [50] [200] [30] = some (50, 120) ∧
    deployBreakdown [90] [100] [30] = some (90, -20) := by
  refine ⟨?_, by with_unfolding_all decide, by with_unfolding_all decide⟩
  rw [deployBreakdown, if_neg (by simp [hw, he, hp])]
  by_cases hc : 0 ≤ minQ eLat - minQ ePre - minQ wProc
  · rw [if_pos hc, pyInt_eq_floor _ hproc, pyInt_eq_floor _ hc]
  · rw [if_neg hc, pyInt_eq_floor _ hproc, pyInt_eq_ceil _ (le_of_not_le hc)]

/-- C5 witness: the truncation characterization applied at the
50.5 ms instance, evaluating to the stored pair (50, 119). -/
theorem c5_breakdown_truncation_witness :
    (0 : ℚ) ≤ minQ [101 / 2] ∧
    deployBreakdown [101 / 2] [200] [30] = some (⌊(101 / 2 : ℚ)⌋, ⌊(239 / 2 : ℚ)⌋) := by
  refine ⟨by with_unfolding_all decide, ?_⟩
  have h := (c5_breakdown_truncation [101 / 2] [200] [30]
    (by decide) (by decide) (by decide) (by with_unfolding_all decide)).1
  exact h.trans (by with_unfolding_all decide)

/-- C9: both metrics computations are deterministic pure functions of
the run fields they read (mode, cores, endpoints, output); applying the
parse_output transformer a second time to an already-parsed run
recomputes exactly the same usage, latency (and breakdown) values, so
the transformer is idempotent and has no hidden state. -/
theorem c9_metrics_idempotent :
    (∀ r r2 : Run, parseRunES r = .ok r2 → parseRunES r2 = .ok r2) ∧
    (∀ r r2 : Run, parseRunDep r = .ok r2 → parseRunDep r2 = .ok r2) := by
  constructor
  · intro r r2 h
    rw [parseRunES] at h
    cases hout : r.output with
    | none => rw [hout] at h; exact absurd h (by simp)
    | some out =>
      rw [hout] at h
      dsimp only at h
      cases hm : esMetrics r.mode r.cores r.endpoints out with
      | error e => rw [hm] at h; simp [Except.map] at h
      | ok m =>
        rw [hm] at h
        simp only [Except.map, Except.ok.injEq] at h
        subst h
        rw [parseRunES]
        dsimp only
        rw [hm]
        rfl
  · intro r r2 h
    rw [parseRunDep] at h
    cases hout : r.output with
    | none => rw [hout] at h; exact absurd h (by simp)
    | some out =>
      rw [hout] at h
      dsimp only at h
      cases hm : deployMetrics r.mode r.cores r.endpoints out with
      | error e => rw [hm] at h; simp [Except.map] at h
      | ok m =>
        rw [hm] at h
        simp only [Except.map, Except.ok.injEq] at h
        subst h
        rw [parseRunDep]
        dsimp only
        rw [hm]
        rfl

/-- C9 witness: parsing a concrete run once and again for both
experiment variants, reproducing identical values the second time. -/
theorem c9_metrics_idempotent_witness :
    parseRunES c9wRunES = .ok c9wRunES2 ∧ parseRunES c9wRunES2 = .ok c9wRunES2 ∧
    parseRunDep c9wRunDep = .ok c9wRunDep2 ∧ parseRunDep c9wRunDep2 = .ok c9wRunDep2 := by
  have h1 : parseRunES c9wRunES = .ok c9wRunES2 := by with_unfolding_all decide
  have h2 : parseRunDep c9wRunDep = .ok c9wRunDep2 := by with_unfolding_all decide
  exact ⟨h1, c9_metrics_idempotent.1 _ _ h1, h2, c9_metrics_idempotent.2 _ _ h2⟩

theorem prefOf_refl : ∀ l : List Char, prefOf l l = true := by
  intro l
  induction l with
  | nil => rfl
  | cons a as ih => simp [prefOf, ih]

theorem prefOf_true_append (pat : List Char) :
    ∀ x y : List Char, prefOf pat x = true → prefOf pat (x ++ y) = true := by
  induction pat with
  | nil => intro x y _; rfl
  | cons a as ih =>
    intro x y h
    cases x with
    | nil => simp [prefOf] at h
    | cons b bs =>
      simp only [prefOf, Bool.and_eq_true, decide_eq_true_eq] at h
      simp [prefOf, h.1, ih bs y h.2]

theorem prefOf_self_append (sep rest : List Char) :
    prefOf sep (sep ++ rest) = true :=
  prefOf_true_append sep sep rest (prefOf_refl sep)

theorem prefOf_append_left (pat : List Char) :
    ∀ x y : List Char, pat.length ≤ x.length →
      prefOf pat (x ++ y) = prefOf pat x := by
  induction pat with
  | nil => intro x y _; rfl
  | cons a as ih =>
    intro x y h
    cases x with
    | nil => simp at h
    | cons b bs =>
      simp only [List.length_cons, Nat.add_le_add_iff_right] at h
      simp [prefOf, ih bs y h]

/-- The splitter ignores extra fuel: with at least as much fuel as the
text length the result is that of the canonical fuel. -/
theorem splitFuel_congr (sep : List Char) :
    ∀ (f1 : Nat) (s : List Char) (f2 : Nat), s.length ≤ f1 → s.length ≤ f2 →
      splitFuel sep f1 s = splitFuel sep f2 s := by
  intro f1
  induction f1 with
  | zero =>
    intro s f2 h1 _
    cases s with
    | nil => cases f2 <;> rfl
    | cons c cs => simp at h1
  | succ g1 ih =>
    intro s f2 h1 h2
    cases s with
    | nil => cases f2 <;> rfl
    | cons c cs =>
      cases f2 with
      | zero => simp at h2
      | succ g2 =>
        simp only [splitFuel]
        by_cases hsep : sep.isEmpty
        · simp [hsep]
        · simp only [hsep, if_false]
          by_cases hpre : prefOf sep (c :: cs) = true
          · have hdrop : (List.drop (sep.length - 1) cs).length ≤ g1 := by
              have := List.length_drop (sep.length - 1) cs
              simp only [List.length_cons] at h1
              omega
            have hdrop2 : (List.drop (sep.length - 1) cs).length ≤ g2 := by
              have := List.length_drop (sep.length - 1) cs
              simp only [List.length_cons] at h2
              omega
            simp [hpre, ih _ g2 hdrop hdrop2]
          · have hcs1 : cs.length ≤ g1 := by
              simp only [List.length_cons] at h1; omega
            have hcs2 : cs.length ≤ g2 := by
              simp only [List.length_cons] at h2; omega
            simp [hpre, ih _ g2 hcs1 hcs2]

theorem SafeChunk_tail (sep : List Char) (a : Char) (as : List Char)
    (h : SafeChunk sep (a :: as)) : SafeChunk sep as :=
  fun i hi => h (i + 1) (by simpa using Nat.succ_lt_succ hi)

theorem SafeChunk_not_pref (sep p : List Char) (h : SafeChunk sep p)
    (hne : p ≠ []) : prefOf sep p = false := by
  cases hp : prefOf sep p
  · rfl
  · have h0 : 0 < p.length := List.length_pos.mpr hne
    have := h 0 h0
    rw [List.drop_zero] at this
    rw [prefOf_true_append sep p sep hp] at this
    exact this

/-- A scan-safe chunk alone splits into just itself. -/
theorem splitFuel_last (sep : List Char) (hsep : sep ≠ []) :
    ∀ (p : List Char) (fuel : Nat), p.length ≤ fuel → SafeChunk sep p →
      splitFuel sep fuel p = [p] := by
  intro p
  induction p with
  | nil => intro fuel _ _; cases fuel <;> rfl
  | cons a as ih =>
    intro fuel hlen hs
    cases fuel with
    | zero => simp at hlen
    | succ g =>
      have hemp : sep.isEmpty = false := by
        cases sep with
        | nil => exact absurd rfl hsep
        | cons d ds => rfl
      have hpre : prefOf sep (a :: as) = false :=
        SafeChunk_not_pref sep (a :: as) hs (by simp)
      rw [splitFuel]
      simp only [hemp, Bool.false_eq_true, if_false, hpre]
      rw [ih g (by simpa using Nat.le_of_succ_le_succ hlen) (SafeChunk_tail sep a as hs)]

/-- Scanning a scan-safe chunk followed by the separator peels off
exactly that chunk. -/
theorem splitFuel_chunk (sep : List Char) (hsep : sep ≠ []) :
    ∀ (p rest : List Char) (fuel : Nat),
      (p ++ sep ++ rest).length ≤ fuel → SafeChunk sep p →
      splitFuel sep fuel (p ++ sep ++ rest) = p :: splitFuel sep rest.length rest := by
  intro p
  induction p with
  | nil =>
    intro rest fuel hlen _
    cases sep with
    | nil => exact absurd rfl hsep
    | cons d ds =>
      simp only [List.nil_append] at hlen ⊢
      cases fuel with
      | zero => simp at hlen
      | succ g =>
        rw [List.cons_append, splitFuel]
        have hpre : prefOf (d :: ds) ((d :: ds) ++ rest) = true :=
          prefOf_self_append (d :: ds) rest
        rw [List.cons_append] at hpre
        simp only [List.isEmpty_cons, Bool.false_eq_true, if_false, hpre, if_true]
        have hdrop : List.drop ((d :: ds).length - 1) (ds ++ rest) = rest := by
          simp only [List.length_cons, Nat.add_sub_cancel]
          exact List.drop_left ds rest
        rw [hdrop]
        have hg : rest.length ≤ g := by
          simp only [List.cons_append, List.length_cons, List.length_append] at hlen
          omega
        rw [splitFuel_congr (d :: ds) g rest rest.length hg (Nat.le_refl _)]
  | cons a p2 ih =>
    intro rest fuel hlen hs
    cases fuel with
    | zero => simp at hlen
    | succ g =>
      have hemp : sep.isEmpty = false := by
        cases sep with
        | nil => exact absurd rfl hsep
        | cons d ds => rfl
      have hpre : prefOf sep ((a :: p2) ++ sep ++ rest) = false := by
        have hlen2 : sep.length ≤ ((a :: p2) ++ sep).length := by
          simp only [List.length_append, List.length_cons]
          omega
        have hassoc : (a :: p2) ++ sep ++ rest = ((a :: p2) ++ sep) ++ rest := by
          simp [List.append_assoc]
        rw [hassoc, prefOf_append_left sep ((a :: p2) ++ sep) rest hlen2]
        exact hs 0 (by simp)
      rw [List.cons_append, List.cons_append] at hpre ⊢
      rw [splitFuel]
      simp only [hemp, Bool.false_eq_true, if_false, hpre]
      rw [ih rest g (by simpa using Nat.le_of_succ_le_succ hlen)
        (SafeChunk_tail sep a p2 hs)]

/-- Splitting undoes joining for scan-safe chunks. -/
theorem splitSeq_joinSep (sep : List Char) (hsep : sep ≠ []) :
    ∀ parts : List (List Char), parts ≠ [] → (∀ p ∈ parts, SafeChunk sep p) →
      splitSeq sep (joinSep sep parts) = parts := by
  intro parts
  induction parts with
  | nil => intro h _; exact absurd rfl h
  | cons p rest ih =>
    intro _ hsafe
    cases rest with
    | nil =>
      rw [joinSep, splitSeq]
      exact splitFuel_last sep hsep p p.length (Nat.le_refl _) (hsafe p (by simp))
    | cons q rest2 =>
      rw [joinSep, splitSeq]
      rw [splitFuel_chunk sep hsep p (joinSep sep (q :: rest2)) _
        (Nat.le_refl _) (hsafe p (by simp))]
      rw [show splitFuel sep (joinSep sep (q :: rest2)).length (joinSep sep (q :: rest2)) =
        splitSeq sep (joinSep sep (q :: rest2)) from rfl]
      rw [ih (by simp) (fun x hx => hsafe x (List.mem_cons_of_mem _ hx))]

theorem prefOf_two (a b x y : Char) (t : List Char) :
    prefOf [a, b] (x :: y :: t) = (decide (a = x) && decide (b = y)) := by
  simp [prefOf]

theorem subOf_cons_eq (pat : List Char) (c : Char) (cs : List Char) :
    subOf pat (c :: cs) = (prefOf pat (c :: cs) || subOf pat cs) := rfl

/-- A chunk with no separator character is scan-safe for a one-character
separator. -/
theorem safeChunk_single (c : Char) (p : List Char) (h : c ∉ p) :
    SafeChunk [c] p := by
  intro i hi
  rw [List.drop_eq_getElem_cons hi]
  have hne : c ≠ p[i] := fun he => h (he ▸ List.getElem_mem hi)
  simp [prefOf, hne]

/-- A chunk with no backslash-n occurrence is scan-safe for the
backslash-n separator: an occurrence cannot straddle the end of the
chunk because the separator's second character is not a backslash. -/
theorem safeChunk_bsn :
    ∀ p : List Char, subOf ['\\', 'n'] p = false → SafeChunk ['\\', 'n'] p := by
  intro p
  induction p with
  | nil => intro _ i hi; simp at hi
  | cons c cs ih =>
    intro h i hi
    rw [subOf_cons_eq, Bool.or_eq_false_iff] at h
    cases i with
    | zero =>
      rw [List.drop_zero]
      cases cs with
      | nil => simp [prefOf]
      | cons d ds =>
        rw [List.cons_append, List.cons_append, prefOf_two]
        have h1 := h.1
        rw [prefOf_two] at h1
        exact h1
    | succ j =>
      have hj : j < cs.length := by simpa using Nat.lt_of_succ_lt_succ hi
      exact ih h.2 j hj

/-- Inserting a character that matches neither separator position
between two separator-free pieces keeps the result separator-free (for
a two-character separator). -/
theorem not_sub2_append (c1 c2 m : Char) (hc1 : c1 ≠ m) (hc2 : c2 ≠ m) :
    ∀ x y : List Char, subOf [c1, c2] x = false → subOf [c1, c2] y = false →
      subOf [c1, c2] (x ++ m :: y) = false := by
  intro x
  induction x with
  | nil =>
    intro y _ hy
    rw [List.nil_append, subOf_cons_eq, hy, Bool.or_false]
    cases y with
    | nil => simp [prefOf]
    | cons e es =>
      rw [prefOf_two]
      simp [hc1]
  | cons a xs ih =>
    intro y hx hy
    rw [subOf_cons_eq, Bool.or_eq_false_iff] at hx
    rw [List.cons_append, subOf_cons_eq, ih y hx.2 hy, Bool.or_false]
    cases xs with
    | nil =>
      rw [List.nil_append, prefOf_two]
      simp [hc2]
    | cons b bs =>
      rw [List.cons_append, prefOf_two]
      have h1 := hx.1
      rw [prefOf_two] at h1
      exact h1

/-- Joining backslash-n-free fields with commas produces a
backslash-n-free line: neither separator character is a comma, so no
occurrence can straddle a field boundary. -/
theorem joinSep_comma_bsn_free :
    ∀ xs : List (List Char), (∀ x ∈ xs, subOf ['\\', 'n'] x = false) →
      subOf ['\\', 'n'] (joinSep [','] xs) = false := by
  intro xs
  induction xs with
  | nil => intro _; rfl
  | cons p rest ih =>
    intro h
    cases rest with
    | nil => exact h p (by simp)
    | cons q rest2 =>
      rw [joinSep]
      have hform : p ++ [','] ++ joinSep [','] (q :: rest2) =
          p ++ ',' :: joinSep [','] (q :: rest2) := by
        rw [List.append_assoc, List.singleton_append]
      rw [hform]
      exact not_sub2_append '\\' 'n' ',' (by decide) (by decide) p _
        (h p (by simp)) (ih (fun x hx => h x (List.mem_cons_of_mem _ hx)))

theorem dChar_ne (k : Nat) : dChar k ≠ '\\' ∧ dChar k ≠ ',' := by
  unfold dChar
  split_ifs <;> exact ⟨by decide, by decide⟩

theorem natChars_ne : ∀ (fuel n : Nat) (c : Char), c ∈ natChars fuel n →
    c ≠ '\\' ∧ c ≠ ',' := by
  intro fuel
  induction fuel with
  | zero =>
    intro n c hc
    rw [natChars, List.mem_singleton] at hc
    exact hc ▸ dChar_ne n
  | succ g ih =>
    intro n c hc
    rw [natChars] at hc
    by_cases hn : n < 10
    · rw [if_pos hn, List.mem_singleton] at hc
      exact hc ▸ dChar_ne n
    · rw [if_neg hn, List.mem_append] at hc
      rcases hc with hc | hc
      · exact ih (n / 10) c hc
      · rw [List.mem_singleton] at hc
        exact hc ▸ dChar_ne n

/-- A character list with no backslash at all is backslash-n-free. -/
theorem no_bs_sub_bsn : ∀ l : List Char, (∀ c ∈ l, c ≠ '\\') →
    subOf ['\\', 'n'] l = false := by
  intro l
  induction l with
  | nil => intro _; rfl
  | cons c cs ih =>
    intro h
    rw [subOf_cons_eq, ih (fun x hx => h x (List.mem_cons_of_mem _ hx)), Bool.or_false]
    have hc : c ≠ '\\' := h c (by simp)
    cases cs with
    | nil => simp [prefOf]
    | cons d ds =>
      rw [prefOf_two]
      have hd : decide ('\\' = c) = false := decide_eq_false (fun he => hc he.symm)
      simp [hd]

theorem map_mk_data : ∀ row : List String, row.map (fun s => String.mk s.data) = row := by
  intro row
  induction row with
  | nil => rfl
  | cons s ss ih => rw [List.map_cons, ih]

/-- Decoding one encoded line: splitting on commas recovers the index
field and the cells, and dropping the index leaves exactly the row. -/
theorem encLine_split (n : Nat) (row : List String)
    (hg : ∀ s ∈ row, goodCell s) :
    (pySplit "," (String.mk (encLine n row))).drop 1 = row := by
  rw [pySplit]
  rw [show ("," : String).data = [','] from rfl]
  rw [show (String.mk (encLine n row)).data = encLine n row from rfl]
  rw [encLine]
  rw [splitSeq_joinSep [','] (by decide) _ (by simp) ?hsafe]
  case hsafe =>
    intro p hp
    rcases List.mem_map.mp hp with ⟨s, hs, rfl⟩
    rcases List.mem_cons.mp hs with rfl | hsrow
    · apply safeChunk_single
      intro hmem
      exact (natChars_ne n n ',' hmem).2 rfl
    · exact safeChunk_single ',' s.data (hg s hsrow).1
  rw [List.map_map]
  rw [List.map_cons, List.drop_succ_cons, List.drop_zero]
  exact map_mk_data row

/-- An encoded line is free of the backslash-n row delimiter. -/
theorem encLine_bsn_free (n : Nat) (row : List String)
    (hg : ∀ s ∈ row, goodCell s) :
    subOf ['\\', 'n'] (encLine n row) = false := by
  rw [encLine]
  apply joinSep_comma_bsn_free
  intro x hx
  rcases List.mem_map.mp hx with ⟨s, hs, rfl⟩
  rcases List.mem_cons.mp hs with rfl | hsrow
  · exact no_bs_sub_bsn _ (fun c hc => (natChars_ne n n c hc).1)
  · exact (hg s hsrow).2

/-- C7 (amended): encoding a table whose header names and cells contain
neither a comma nor the literal backslash-n sequence into the escaped
payload format, then decoding through the payload decoder of
parse_output, reproduces the identical header and rows. (Without that
restriction the round trip fails; see the counterexample.) -/
theorem c7_roundtrip (header : List String) (rows : List (List String))
    (hg : ∀ row ∈ header :: rows, ∀ s ∈ row, goodCell s) :
    decodePayload (encodeTable header rows) = header :: rows := by
  rw [decodePayload, encodeTable, pySplit]
  rw [show ("\\n" : String).data = ['\\', 'n'] from rfl]
  rw [show (String.mk (joinSep ['\\', 'n']
      (((header :: rows).enum).map fun p => encLine p.1 p.2))).data =
      joinSep ['\\', 'n'] (((header :: rows).enum).map fun p => encLine p.1 p.2)
    from rfl]
  rw [splitSeq_joinSep ['\\', 'n'] (by decide) _ ?hne ?hsafe]
  case hne =>
    intro h
    have hlen := congrArg List.length h
    simp [List.enum_length] at hlen
  case hsafe =>
    intro line hline
    rcases List.mem_map.mp hline with ⟨p, hp, rfl⟩
    have hp2 : p.2 ∈ header :: rows :=
      List.getElem?_mem (List.mem_enum_iff_getElem?.mp hp)
    exact safeChunk_bsn _ (encLine_bsn_free p.1 p.2 (hg p.2 hp2))
  rw [List.map_map, List.map_map, List.map_map]
  have h2 : List.map Prod.snd ((header :: rows).enum) = header :: rows := by
    rw [List.enum, List.enumFrom_map_snd]
  refine Eq.trans (List.map_congr_left ?_) h2
  intro p hp
  have hp2 : p.2 ∈ header :: rows :=
    List.getElem?_mem (List.mem_enum_iff_getElem?.mp hp)
  exact encLine_split p.1 p.2 (hg p.2 hp2)

/-- C7 counterexample: a header cell containing a comma does not round
trip — the encoder writes it as two comma-separated fields and the
decoder reads back two cells, so the round trip does not hold for every
table. -/
theorem c7_roundtrip_cex :
    decodePayload (encodeTable ["a,b"] []) = [["a", "b"]] ∧
    decodePayload (encodeTable ["a,b"] []) ≠ [["a,b"]] :=
  ⟨by decide, by decide⟩

/-- C7 witness: the header [a, b] with rows [[1, 2], [3, 4]] encodes and
decodes back to the identical header and rows. -/
theorem c7_roundtrip_witness :
    decodePayload (encodeTable ["a", "b"] [["1", "2"], ["3", "4"]]) =
      [["a", "b"], ["1", "2"], ["3", "4"]] :=
  c7_roundtrip ["a", "b"] [["1", "2"], ["3", "4"]] (by decide)
